import Mathlib

/-!
# Verification of the visiting-card OCR pipeline

Shallow embedding of the single script of this repository
(src/visiting-card-ocr.py).  The script walks top-level folders under a
data root, lists image files in their immediate subfolders, extracts text
per image through an external OCR service, aggregates (path, text) rows,
drops rows whose image path was already seen, exports the table to a
spreadsheet and finally deletes the processed folder.

Modelling choices:
* A pandas DataFrame with columns image_url / raw_text is a list of
  ImageRecord; row order is list order, the index reset is invisible.
* The fallible OCR call (file open + network request, any exception) is
  an oracle of type String → Option String: none models a raised
  exception, some t models a successful extraction returning t.
* The directory tree is explicit data: a subfolder listing is a list of
  file names, a top-level listing a list of FsEntry / TopFolder values,
  in os.listdir order.
* Exceptions inside the per-folder try block of execute can also arise
  in save_to_excel and shutil.rmtree; which step of a folder raises is an
  oracle String → FailPoint.  The export write and the folder deletion
  are treated as atomic: each either completes or leaves the filesystem
  unchanged.
* os.path.join of the script's relative paths is string concatenation
  with a "/" separator.
-/

/-- One row of the result table: the DataFrame produced by process_image
has columns image_url and raw_text. -/
structure ImageRecord where
  image_url : String
  raw_text : String
deriving DecidableEq, Repr

/-- os.path.join for the relative paths the script builds. -/
def pathJoin (a b : String) : String := a ++ "/" ++ b

/-- Recursion behind clean_duplicates: pandas drop_duplicates with
subset image_url and keep first: a row is dropped exactly when its
image_url occurred earlier (seen collects the urls already kept). -/
def cleanDupAux (seen : List String) : List ImageRecord → List ImageRecord
  | [] => []
  | r :: rs =>
    if r.image_url ∈ seen then cleanDupAux seen rs
    else r :: cleanDupAux (r.image_url :: seen) rs

/-- clean_duplicates: df.drop_duplicates(subset=image_url, keep=first)
followed by reset_index(drop=True); the index reset is invisible in the
list model. -/
def clean_duplicates (df : List ImageRecord) : List ImageRecord :=
  cleanDupAux [] df

/-- The fixed extension allow-list of process_folder. -/
def imageExtensions : List String := [".png", ".jpg", ".jpeg", ".bmp", ".gif"]

/-- Python str.lower, character by character (list-backed so that it
evaluates by kernel reduction). -/
def lowerStr (s : String) : String := String.mk (s.data.map Char.toLower)

/-- Python str.endswith for a single suffix (list-backed so that it
evaluates by kernel reduction). -/
def strEndsWith (s post : String) : Bool := post.data.isSuffixOf s.data

/-- The filter file_name.lower().endswith((".png", ".jpg", ".jpeg",
".bmp", ".gif")) of process_folder; endswith on a tuple succeeds when
any listed suffix matches. -/
def isImageFile (file_name : String) : Bool :=
  imageExtensions.any fun ext => strEndsWith (lowerStr file_name) ext

/-- One entry of os.listdir(folder_path) as seen by process_folder: a
plain file, or a subdirectory together with its own listing. -/
inductive FsEntry where
  | file (name : String)
  | dir (name : String) (files : List String)
deriving DecidableEq, Repr

/-- The inner loop of process_folder over one subfolder listing: skip
names failing the extension filter, call process_image on the rest; an
extraction error (ocr returns none) is caught and contributes no row. -/
def subfolderRecords (ocr : String → Option String) (subfolder_path : String)
    (files : List String) : List ImageRecord :=
  files.filterMap fun file_name =>
    if isImageFile file_name then
      (ocr (pathJoin subfolder_path file_name)).map
        fun t => ⟨pathJoin subfolder_path file_name, t⟩
    else none

/-- process_folder: iterate os.listdir(folder_path), skip non-directory
entries, and concatenate the per-image one-row frames of every
subfolder; with no rows the result is the empty frame with columns
image_url, raw_text (the empty list here). -/
def process_folder (ocr : String → Option String) (folder_path : String)
    (entries : List FsEntry) : List ImageRecord :=
  entries.flatMap fun e =>
    match e with
    | .file _ => []
    | .dir subfolder files =>
        subfolderRecords ocr (pathJoin folder_path subfolder) files

/-- One text annotation of the Vision API response; its description
field is the recognized text. -/
structure OcrEntity where
  description : String
deriving DecidableEq, Repr

/-- The Vision API response as extract_text_from_image reads it: the
repeated field text_annotations, an ordered list, empty when the service
reports no text (a protobuf repeated field is never absent, an absent
field reads as the empty list). -/
structure OcrResponse where
  text_annotations : List OcrEntity
deriving DecidableEq, Repr

/-- extract_text_from_image: submit the image, read
response.text_annotations, and return annotations[0].description when
the list is truthy (non-empty), the empty string otherwise.  The network
client is a function from the image file path to the response. -/
def extract_text_from_image (client : String → OcrResponse)
    (image_file : String) : String :=
  match (client image_file).text_annotations with
  | a :: _ => a.description
  | [] => ""

/-- The spreadsheet file save_to_excel writes: a header row (the
DataFrame columns, index=False drops the index) and one row of cells per
record. -/
structure Spreadsheet where
  header : List String
  rows : List (List String)
deriving DecidableEq, Repr

/-- save_to_excel / df.to_excel on a table with columns image_url,
raw_text: header then the rows in order. -/
def toSpreadsheet (df : List ImageRecord) : Spreadsheet :=
  ⟨["image_url", "raw_text"], df.map fun r => [r.image_url, r.raw_text]⟩

/-- One entry of os.listdir(self.data_dir): its name, and its listing
when it is a directory (none models a non-directory entry, skipped by
execute). -/
structure TopFolder where
  name : String
  contents : Option (List FsEntry)
deriving DecidableEq, Repr

/-- Where, if anywhere, the body of execute's try block raises for a
given folder: during process_folder (walking), during save_to_excel
(the export write), during shutil.rmtree (cleanup), or nowhere. -/
inductive FailPoint where
  | atWalk
  | atExport
  | atRmtree
  | noFail
deriving DecidableEq, Repr

/-- Observable actions of one run of execute, in program order: an
export write completing (with the written file name and content), a
folder deletion completing, an exception being caught and logged for a
folder. -/
inductive Event where
  | exported (file : String) (sheet : Spreadsheet)
  | deleted (folder : String)
  | logged (folder : String)
deriving DecidableEq, Repr

/-- State of a run of execute: the top-level entries still on disk under
data_dir, the spreadsheet files written under output_dir, and the trace
of events so far. -/
structure RunState where
  disk : List TopFolder
  outputs : List (String × Spreadsheet)
  trace : List Event
deriving DecidableEq, Repr

/-- The output file path of a folder:
os.path.join(output_dir, folder + "_raw_text_extracted.xlsx"). -/
def outputName (output_dir folder : String) : String :=
  pathJoin output_dir (folder ++ "_raw_text_extracted.xlsx")

/-- The table execute builds for one folder before exporting:
clean_duplicates(process_folder(folder_path)). -/
def folderTable (ocr : String → Option String) (data_dir : String)
    (tf : TopFolder) (es : List FsEntry) : List ImageRecord :=
  clean_duplicates (process_folder ocr (pathJoin data_dir tf.name) es)

/-- One iteration of execute's loop over os.listdir(data_dir): skip a
non-directory entry (it stays on disk); otherwise run the try block —
process_folder, clean_duplicates, save_to_excel, shutil.rmtree — where
the step named by the failure oracle raises; a raised exception is
caught and logged and the folder stays on disk, with the export already
written when the exception came from rmtree. -/
def execStep (ocr : String → Option String) (failAt : String → FailPoint)
    (data_dir output_dir : String) (st : RunState) (tf : TopFolder) : RunState :=
  match tf.contents with
  | none => { st with disk := st.disk ++ [tf] }
  | some es =>
    match failAt tf.name with
    | .atWalk =>
        { st with disk := st.disk ++ [tf],
                  trace := st.trace ++ [.logged tf.name] }
    | .atExport =>
        { st with disk := st.disk ++ [tf],
                  trace := st.trace ++ [.logged tf.name] }
    | .atRmtree =>
        { st with disk := st.disk ++ [tf],
                  outputs := st.outputs ++
                    [(outputName output_dir tf.name,
                      toSpreadsheet (folderTable ocr data_dir tf es))],
                  trace := st.trace ++
                    [.exported (outputName output_dir tf.name)
                       (toSpreadsheet (folderTable ocr data_dir tf es)),
                     .logged tf.name] }
    | .noFail =>
        { st with outputs := st.outputs ++
                    [(outputName output_dir tf.name,
                      toSpreadsheet (folderTable ocr data_dir tf es))],
                  trace := st.trace ++
                    [.exported (outputName output_dir tf.name)
                       (toSpreadsheet (folderTable ocr data_dir tf es)),
                     .deleted tf.name] }

/-- execute: fold the per-folder iteration over os.listdir(data_dir),
starting from an empty output directory and an empty trace. -/
def execute (ocr : String → Option String) (failAt : String → FailPoint)
    (data_dir output_dir : String) (entries : List TopFolder) : RunState :=
  entries.foldl (execStep ocr failAt data_dir output_dir) ⟨[], [], []⟩

/-! ## Lemmas about clean_duplicates -/

theorem cleanDupAux_sublist (seen : List String) (t : List ImageRecord) :
    (cleanDupAux seen t).Sublist t := by
  induction t generalizing seen with
  | nil => simp [cleanDupAux]
  | cons r rs ih =>
    simp only [cleanDupAux]
    split
    · exact (ih seen).trans (List.sublist_cons_self r rs)
    · exact (ih _).cons₂ r

theorem cleanDupAux_not_seen (seen : List String) (t : List ImageRecord) :
    ∀ s ∈ cleanDupAux seen t, s.image_url ∉ seen := by
  induction t generalizing seen with
  | nil => simp [cleanDupAux]
  | cons r rs ih =>
    intro s hs
    simp only [cleanDupAux] at hs
    split at hs
    · exact ih seen s hs
    · rcases List.mem_cons.mp hs with hs | hs
      · subst hs; assumption
      · intro hmem
        exact ih _ s hs (List.mem_cons_of_mem _ hmem)

theorem cleanDupAux_nodup (seen : List String) (t : List ImageRecord) :
    ((cleanDupAux seen t).map ImageRecord.image_url).Nodup := by
  induction t generalizing seen with
  | nil => simp [cleanDupAux]
  | cons r rs ih =>
    simp only [cleanDupAux]
    split
    · exact ih seen
    · refine List.nodup_cons.mpr ⟨?_, ih _⟩
      intro hmem
      rcases List.mem_map.mp hmem with ⟨s, hs, hurl⟩
      exact cleanDupAux_not_seen _ _ s hs (hurl ▸ List.mem_cons_self _ _)

theorem cleanDupAux_complete (seen : List String) (t : List ImageRecord) :
    ∀ r ∈ t, r.image_url ∈ seen ∨
      ∃ s ∈ cleanDupAux seen t, s.image_url = r.image_url := by
  induction t generalizing seen with
  | nil => simp
  | cons q qs ih =>
    intro r hr
    simp only [cleanDupAux]
    rcases List.mem_cons.mp hr with hr | hr
    · split
      · left; rw [hr]; assumption
      · right; exact ⟨q, List.mem_cons_self _ _, by rw [hr]⟩
    · split
      · rcases ih seen r hr with h | ⟨s, hs, hurl⟩
        · left; exact h
        · right; exact ⟨s, hs, hurl⟩
      · rcases ih _ r hr with h | ⟨s, hs, hurl⟩
        · rcases List.mem_cons.mp h with h | h
          · right; exact ⟨q, List.mem_cons_self _ _, h.symm⟩
          · left; exact h
        · right; exact ⟨s, List.mem_cons_of_mem _ hs, hurl⟩

theorem cleanDupAux_first (seen : List String) (t : List ImageRecord) :
    ∀ s ∈ cleanDupAux seen t, ∃ t₁ t₂, t = t₁ ++ s :: t₂ ∧
      ∀ r ∈ t₁, r.image_url ≠ s.image_url := by
  induction t generalizing seen with
  | nil => simp [cleanDupAux]
  | cons q qs ih =>
    intro s hs
    simp only [cleanDupAux] at hs
    split at hs
    · rcases ih seen s hs with ⟨t₁, t₂, heq, hne⟩
      refine ⟨q :: t₁, t₂, by rw [heq]; rfl, ?_⟩
      intro r hr
      rcases List.mem_cons.mp hr with hr | hr
      · intro hcon
        exact cleanDupAux_not_seen _ _ s hs (by rw [← hcon, hr]; assumption)
      · exact hne r hr
    · rcases List.mem_cons.mp hs with hs | hs
      · exact ⟨[], qs, by rw [hs]; rfl, by simp⟩
      · rcases ih _ s hs with ⟨t₁, t₂, heq, hne⟩
        refine ⟨q :: t₁, t₂, by rw [heq]; rfl, ?_⟩
        intro r hr
        rcases List.mem_cons.mp hr with hr | hr
        · intro hcon
          refine cleanDupAux_not_seen _ _ s hs ?_
          rw [← hcon, hr]
          exact List.mem_cons_self _ _
        · exact hne r hr

theorem cleanDupAux_eq_self (seen : List String) (t : List ImageRecord)
    (h1 : ∀ s ∈ t, s.image_url ∉ seen)
    (h2 : (t.map ImageRecord.image_url).Nodup) :
    cleanDupAux seen t = t := by
  induction t generalizing seen with
  | nil => rfl
  | cons r rs ih =>
    simp only [cleanDupAux]
    rw [if_neg (h1 r (List.mem_cons_self _ _))]
    congr 1
    refine ih _ ?_ (List.nodup_cons.mp h2).2
    intro s hs
    intro hmem
    rcases List.mem_cons.mp hmem with hmem | hmem
    · exact (List.nodup_cons.mp h2).1 (hmem ▸ List.mem_map_of_mem ImageRecord.image_url hs)
    · exact h1 s (List.mem_cons_of_mem _ hs) hmem

theorem clean_duplicates_nodup_urls (t : List ImageRecord) :
    ((clean_duplicates t).map ImageRecord.image_url).Nodup :=
  cleanDupAux_nodup [] t

theorem clean_duplicates_of_nodup_urls (t : List ImageRecord)
    (h : (t.map ImageRecord.image_url).Nodup) :
    clean_duplicates t = t :=
  cleanDupAux_eq_self [] t (by simp) h

/-- C1: clean_duplicates keeps, in their original relative order, exactly
one record per distinct image path, namely the first record carrying that
path: the output is a subsequence of the input, its paths are pairwise
distinct, every input path is still represented, and each surviving
record has no earlier input record with the same path. -/
theorem clean_duplicates_first_occurrence (t : List ImageRecord) :
    (clean_duplicates t).Sublist t ∧
    ((clean_duplicates t).map ImageRecord.image_url).Nodup ∧
    (∀ r ∈ t, ∃ s ∈ clean_duplicates t, s.image_url = r.image_url) ∧
    (∀ s ∈ clean_duplicates t, ∃ t₁ t₂, t = t₁ ++ s :: t₂ ∧
        ∀ r ∈ t₁, r.image_url ≠ s.image_url) := by
  refine ⟨cleanDupAux_sublist [] t, cleanDupAux_nodup [] t, ?_, cleanDupAux_first [] t⟩
  intro r hr
  rcases cleanDupAux_complete [] t r hr with h | h
  · simp at h
  · exact h

/-- C7: clean_duplicates is idempotent, and its output holds at most one
record per distinct image path. -/
theorem clean_duplicates_idempotent (t : List ImageRecord) :
    clean_duplicates (clean_duplicates t) = clean_duplicates t ∧
    ∀ u : String, ((clean_duplicates t).map ImageRecord.image_url).count u ≤ 1 := by
  constructor
  · exact clean_duplicates_of_nodup_urls _ (clean_duplicates_nodup_urls t)
  · exact List.nodup_iff_count_le_one.mp (clean_duplicates_nodup_urls t)

/-! ## The extractor -/

/-- C8: extract_text_from_image returns the description of the first
text annotation of the response, and the empty string when the
annotation list is absent or empty (an absent repeated field reads as
the empty list). -/
theorem extract_text_first_or_empty (client : String → OcrResponse)
    (image_file : String) :
    extract_text_from_image client image_file =
      (((client image_file).text_annotations.head?).map OcrEntity.description).getD "" := by
  unfold extract_text_from_image
  cases (client image_file).text_annotations <;> simp

/-! ## Membership in process_folder tables -/

theorem mem_subfolderRecords (ocr : String → Option String) (sp : String)
    (files : List String) (r : ImageRecord) :
    r ∈ subfolderRecords ocr sp files ↔
      ∃ f ∈ files, isImageFile f = true ∧
        r.image_url = pathJoin sp f ∧ ocr (pathJoin sp f) = some r.raw_text := by
  unfold subfolderRecords
  rw [List.mem_filterMap]
  constructor
  · rintro ⟨f, hf, hsome⟩
    by_cases himg : isImageFile f
    · rw [if_pos himg] at hsome
      cases hocr : ocr (pathJoin sp f) with
      | none => rw [hocr] at hsome; simp at hsome
      | some t =>
        rw [hocr] at hsome
        simp only [Option.map_some'] at hsome
        injection hsome with hsome
        refine ⟨f, hf, himg, ?_, ?_⟩
        · rw [← hsome]
        · rw [hocr, ← hsome]
    · rw [if_neg himg] at hsome
      simp at hsome
  · rintro ⟨f, hf, himg, hurl, hocr⟩
    refine ⟨f, hf, ?_⟩
    rw [if_pos himg, hocr]
    simp only [Option.map_some']
    cases r
    simp only at hurl
    rw [hurl]

theorem mem_process_folder (ocr : String → Option String) (folder_path : String)
    (entries : List FsEntry) (r : ImageRecord) :
    r ∈ process_folder ocr folder_path entries ↔
      ∃ sub files, FsEntry.dir sub files ∈ entries ∧
        r ∈ subfolderRecords ocr (pathJoin folder_path sub) files := by
  unfold process_folder
  rw [List.mem_flatMap]
  constructor
  · rintro ⟨e, he, hr⟩
    cases e with
    | file n => simp at hr
    | dir sub files => exact ⟨sub, files, he, hr⟩
  · rintro ⟨sub, files, he, hr⟩
    exact ⟨.dir sub files, he, hr⟩

/-- C3: per-image error isolation in process_folder.  When the
extraction of an image raises (the oracle returns none on its path),
that image contributes no record at all — every record of the table
comes from a successful extraction, so none carries the failing path —
while every allow-listed file whose extraction succeeds still
contributes its record to the table. -/
theorem process_folder_error_isolation (ocr : String → Option String)
    (folder_path : String) (entries : List FsEntry) (bad : String)
    (hbad : ocr bad = none) :
    (∀ r ∈ process_folder ocr folder_path entries,
        ocr r.image_url = some r.raw_text ∧ r.image_url ≠ bad) ∧
    (∀ sub files, FsEntry.dir sub files ∈ entries →
      ∀ f ∈ files, isImageFile f = true →
      ∀ t, ocr (pathJoin (pathJoin folder_path sub) f) = some t →
        (⟨pathJoin (pathJoin folder_path sub) f, t⟩ : ImageRecord) ∈
          process_folder ocr folder_path entries) := by
  constructor
  · intro r hr
    rcases (mem_process_folder ocr folder_path entries r).mp hr with
      ⟨sub, files, hdir, hrec⟩
    rcases (mem_subfolderRecords _ _ _ _).mp hrec with ⟨f, hf, himg, hurl, hocr⟩
    refine ⟨by rw [hurl]; exact hocr, ?_⟩
    intro hcon
    rw [← hurl, hcon, hbad] at hocr
    simp at hocr
  · intro sub files hdir f hf himg t hocr
    refine (mem_process_folder ocr folder_path entries _).mpr
      ⟨sub, files, hdir, (mem_subfolderRecords _ _ _ _).mpr ⟨f, hf, himg, rfl, hocr⟩⟩

/-- An oracle for the witness runs: extraction of A/s1/bad.jpg raises,
every other path extracts the text "text". -/
def exOcr : String → Option String :=
  fun p => if p = "A/s1/bad.jpg" then none else some "text"

/-- Witness for the per-image error isolation: in a folder holding
bad.jpg (whose extraction raises) and good.jpg, the record of good.jpg
is still produced. -/
theorem process_folder_error_isolation_witness :
    exOcr "A/s1/bad.jpg" = none ∧
    (⟨"A/s1/good.jpg", "text"⟩ : ImageRecord) ∈
      process_folder exOcr "A" [FsEntry.dir "s1" ["bad.jpg", "good.jpg"]] :=
  ⟨by decide,
   (process_folder_error_isolation exOcr "A"
      [FsEntry.dir "s1" ["bad.jpg", "good.jpg"]] "A/s1/bad.jpg" (by decide)).2
     "s1" ["bad.jpg", "good.jpg"] (by decide) "good.jpg" (by decide) (by decide)
     "text" (by decide)⟩

/-- C6: every record of a process_folder table comes from a file of an
immediate subdirectory whose name, lowercased, ends with one of the
extensions .png, .jpg, .jpeg, .bmp, .gif; a file failing that filter
never appears in the table. -/
theorem process_folder_only_image_extensions (ocr : String → Option String)
    (folder_path : String) (entries : List FsEntry) (r : ImageRecord)
    (hr : r ∈ process_folder ocr folder_path entries) :
    ∃ sub files f, FsEntry.dir sub files ∈ entries ∧ f ∈ files ∧
      isImageFile f = true ∧
      (∃ ext ∈ imageExtensions, strEndsWith (lowerStr f) ext = true) ∧
      r.image_url = pathJoin (pathJoin folder_path sub) f := by
  rcases (mem_process_folder ocr folder_path entries r).mp hr with
    ⟨sub, files, hdir, hrec⟩
  rcases (mem_subfolderRecords _ _ _ _).mp hrec with ⟨f, hf, himg, hurl, _⟩
  refine ⟨sub, files, f, hdir, hf, himg, ?_, hurl⟩
  have h := himg
  unfold isImageFile at h
  exact List.any_eq_true.mp h

/-- Witness for the extension filter: the x.jpg record of a folder also
holding notes.txt traces back to an allow-listed file name. -/
theorem process_folder_only_image_extensions_witness :
    (⟨"A/s1/x.jpg", "t"⟩ : ImageRecord) ∈
      process_folder (fun _ => some "t") "A"
        [FsEntry.dir "s1" ["x.jpg", "notes.txt"]] ∧
    (∃ sub files f,
      FsEntry.dir sub files ∈ [FsEntry.dir "s1" ["x.jpg", "notes.txt"]] ∧
      f ∈ files ∧ isImageFile f = true ∧
      (∃ ext ∈ imageExtensions, strEndsWith (lowerStr f) ext = true) ∧
      (⟨"A/s1/x.jpg", "t"⟩ : ImageRecord).image_url = pathJoin (pathJoin "A" sub) f) :=
  ⟨by decide,
   process_folder_only_image_extensions (fun _ => some "t") "A"
     [FsEntry.dir "s1" ["x.jpg", "notes.txt"]] ⟨"A/s1/x.jpg", "t"⟩ (by decide)⟩

/-- C5, counterexample to the claimed 2 rows: with subfolder s1 holding
x.jpg and y.png and subfolder s2 holding y.PNG, every extraction
succeeding, the deduplicated table has 3 rows, not 2: the three image
paths A/s1/x.jpg, A/s1/y.png, A/s2/y.PNG are pairwise distinct strings,
so drop_duplicates on exact image_url equality removes nothing. -/
theorem process_folder_case_duplicate_three_rows :
    (clean_duplicates (process_folder (fun _ => some "t") "A"
        [FsEntry.dir "s1" ["x.jpg", "y.png"], FsEntry.dir "s2" ["y.PNG"]])).length = 3 ∧
    ¬ (clean_duplicates (process_folder (fun _ => some "t") "A"
        [FsEntry.dir "s1" ["x.jpg", "y.png"], FsEntry.dir "s2" ["y.PNG"]])).length = 2 := by
  constructor
  · decide
  · decide

/-- C5 as amended: the exported table for that folder has 3 rows, one
per file, in traversal order; deduplication compares the full image
path (subfolder included, case-sensitively), and the three paths are
pairwise distinct, so no row is dropped. -/
theorem process_folder_case_duplicate_table :
    clean_duplicates (process_folder (fun _ => some "t") "A"
        [FsEntry.dir "s1" ["x.jpg", "y.png"], FsEntry.dir "s2" ["y.PNG"]]) =
      [⟨"A/s1/x.jpg", "t"⟩, ⟨"A/s1/y.png", "t"⟩, ⟨"A/s2/y.PNG", "t"⟩] := by
  decide

/-! ## Injectivity of the joined image paths

A name returned by os.listdir never contains the path separator; under
that hypothesis the joined path subfolder/file determines the subfolder
and the file name. -/

/-- The name contains no path separator (true of every os.listdir
entry). -/
def noSlash (s : String) : Bool := s.data.all fun c => c ≠ '/'

/-- The name under which an os.listdir entry appears. -/
def entryName : FsEntry → String
  | .file n => n
  | .dir n _ => n

/-- What the filesystem guarantees about one listed subfolder: its name
and the file names it lists are separator-free, and its listing repeats
no name. -/
def entryOk : FsEntry → Prop
  | .file _ => True
  | .dir sub files =>
      noSlash sub = true ∧ (∀ f ∈ files, noSlash f = true) ∧ files.Nodup

instance entryOk_decidable : DecidablePred entryOk := fun e =>
  match e with
  | .file _ => isTrue trivial
  | .dir _ files =>
      inferInstanceAs (Decidable (_ ∧ (∀ f ∈ files, noSlash f = true) ∧ _))

theorem append_sep_inj {α : Type} (c : α) :
    ∀ a₁ a₂ b₁ b₂ : List α, c ∉ a₁ → c ∉ a₂ →
      a₁ ++ c :: b₁ = a₂ ++ c :: b₂ → a₁ = a₂ ∧ b₁ = b₂ := by
  intro a₁
  induction a₁ with
  | nil =>
    intro a₂ b₁ b₂ h₁ h₂ h
    cases a₂ with
    | nil => simpa using h
    | cons x a₂ =>
      exfalso
      apply h₂
      simp only [List.nil_append, List.cons_append] at h
      rw [List.mem_cons]
      left
      exact (List.cons.injEq _ _ _ _ ▸ h).1.symm ▸ rfl
  | cons x a₁ ih =>
    intro a₂ b₁ b₂ h₁ h₂ h
    cases a₂ with
    | nil =>
      exfalso
      apply h₁
      simp only [List.cons_append, List.nil_append] at h
      rw [List.mem_cons]
      left
      exact ((List.cons.injEq _ _ _ _ ▸ h).1) ▸ rfl
    | cons y a₂ =>
      simp only [List.cons_append, List.cons.injEq] at h
      rcases h with ⟨hxy, h⟩
      have h₁' : c ∉ a₁ := fun hc => h₁ (List.mem_cons_of_mem _ hc)
      have h₂' : c ∉ a₂ := fun hc => h₂ (List.mem_cons_of_mem _ hc)
      rcases ih a₂ b₁ b₂ h₁' h₂' h with ⟨he, hb⟩
      exact ⟨by rw [hxy, he], hb⟩

theorem pathJoin_data (a b : String) :
    (pathJoin a b).data = a.data ++ '/' :: b.data := by
  show ((a ++ "/") ++ b).data = a.data ++ '/' :: b.data
  rw [String.data_append, String.data_append,
    show ("/" : String).data = ['/'] by decide, List.append_assoc]
  rfl

theorem noSlash_not_mem {s : String} (h : noSlash s = true) : '/' ∉ s.data := by
  intro hc
  have := List.all_eq_true.mp h '/' hc
  simp at this

theorem pathJoin_inj (p s₁ s₂ f₁ f₂ : String)
    (hs₁ : noSlash s₁ = true) (hs₂ : noSlash s₂ = true)
    (h : pathJoin (pathJoin p s₁) f₁ = pathJoin (pathJoin p s₂) f₂) :
    s₁ = s₂ ∧ f₁ = f₂ := by
  have hd : (pathJoin (pathJoin p s₁) f₁).data = (pathJoin (pathJoin p s₂) f₂).data := by
    rw [h]
  rw [pathJoin_data, pathJoin_data, pathJoin_data, pathJoin_data] at hd
  simp only [List.cons_append, List.append_assoc] at hd
  have hd' : s₁.data ++ '/' :: f₁.data = s₂.data ++ '/' :: f₂.data := by
    have := List.append_cancel_left hd
    exact List.cons.injEq _ _ _ _ ▸ this |>.2
  rcases append_sep_inj '/' s₁.data s₂.data f₁.data f₂.data
    (noSlash_not_mem hs₁) (noSlash_not_mem hs₂) hd' with ⟨h₁, h₂⟩
  constructor
  · ext1; exact h₁
  · ext1; exact h₂

theorem pathJoin_left_inj (p f₁ f₂ : String) (h : pathJoin p f₁ = pathJoin p f₂) :
    f₁ = f₂ := by
  have hd : (pathJoin p f₁).data = (pathJoin p f₂).data := by rw [h]
  rw [pathJoin_data, pathJoin_data] at hd
  have := List.append_cancel_left hd
  have h2 := (List.cons.injEq _ _ _ _ ▸ this).2
  ext1; exact h2

theorem subfolderRecords_cons (ocr : String → Option String) (sp f : String)
    (fs : List String) :
    subfolderRecords ocr sp (f :: fs) =
      (if isImageFile f then
          ((ocr (pathJoin sp f)).map fun t => (⟨pathJoin sp f, t⟩ : ImageRecord)).toList
        else []) ++ subfolderRecords ocr sp fs := by
  unfold subfolderRecords
  rw [List.filterMap_cons]
  by_cases himg : isImageFile f
  · rw [if_pos himg, if_pos himg]
    cases ocr (pathJoin sp f) <;> rfl
  · rw [if_neg himg, if_neg himg]
    rfl

theorem subfolderRecords_urls_sublist (ocr : String → Option String) (sp : String)
    (files : List String) :
    ((subfolderRecords ocr sp files).map ImageRecord.image_url).Sublist
      (files.map fun f => pathJoin sp f) := by
  induction files with
  | nil => simp [subfolderRecords]
  | cons f fs ih =>
    rw [subfolderRecords_cons]
    by_cases himg : isImageFile f
    · rw [if_pos himg]
      cases hocr : ocr (pathJoin sp f) with
      | none =>
        simpa using ih.trans (List.sublist_cons_self _ _)
      | some t =>
        simpa using ih.cons₂ (pathJoin sp f)
    · rw [if_neg himg]
      simpa using ih.trans (List.sublist_cons_self _ _)

theorem subfolderRecords_urls_nodup (ocr : String → Option String) (sp : String)
    (files : List String) (hnd : files.Nodup) :
    ((subfolderRecords ocr sp files).map ImageRecord.image_url).Nodup := by
  refine (subfolderRecords_urls_sublist ocr sp files).nodup ?_
  exact hnd.map fun a b h => pathJoin_left_inj sp a b h

theorem mem_subfolderRecords_urls (ocr : String → Option String) (sp : String)
    (files : List String) (u : String)
    (hu : u ∈ (subfolderRecords ocr sp files).map ImageRecord.image_url) :
    ∃ f ∈ files, u = pathJoin sp f := by
  rcases List.mem_map.mp hu with ⟨r, hr, hru⟩
  rcases (mem_subfolderRecords _ _ _ _).mp hr with ⟨f, hf, _, hurl, _⟩
  exact ⟨f, hf, by rw [← hru, hurl]⟩

/-- C10: a table produced by process_folder already has pairwise
distinct image paths — each one joins the folder path with a distinct
subfolder name and a distinct file name, and listdir names are
repetition-free and separator-free — so clean_duplicates leaves every
such table unchanged (the dropped index reset is invisible in the list
model). -/
theorem process_folder_nodup_urls (ocr : String → Option String)
    (folder_path : String) (entries : List FsEntry)
    (hnames : (entries.map entryName).Nodup)
    (hwf : ∀ e ∈ entries, entryOk e) :
    ((process_folder ocr folder_path entries).map ImageRecord.image_url).Nodup ∧
    clean_duplicates (process_folder ocr folder_path entries) =
      process_folder ocr folder_path entries := by
  have hnd : ((process_folder ocr folder_path entries).map
      ImageRecord.image_url).Nodup := by
    unfold process_folder
    rw [List.map_flatMap]
    refine List.nodup_flatMap.mpr ⟨?_, ?_⟩
    · intro e he
      cases e with
      | file n => simp
      | dir sub files =>
        have h : noSlash sub = true ∧ (∀ f ∈ files, noSlash f = true) ∧
            files.Nodup := hwf _ he
        exact subfolderRecords_urls_nodup ocr _ files h.2.2
    · have hp := List.pairwise_map.mp hnames
      refine hp.imp_of_mem ?_
      intro e₁ e₂ h₁ h₂ hne
      cases e₁ with
      | file n => intro u hu; simp at hu
      | dir sub₁ files₁ =>
        cases e₂ with
        | file n => intro u hu₁ hu₂; simp at hu₂
        | dir sub₂ files₂ =>
          intro u hu₁ hu₂
          rcases mem_subfolderRecords_urls _ _ _ _ hu₁ with ⟨f₁, hf₁, huf₁⟩
          rcases mem_subfolderRecords_urls _ _ _ _ hu₂ with ⟨f₂, hf₂, huf₂⟩
          have hok₁ : noSlash sub₁ = true ∧ (∀ f ∈ files₁, noSlash f = true) ∧
              files₁.Nodup := hwf _ h₁
          have hok₂ : noSlash sub₂ = true ∧ (∀ f ∈ files₂, noSlash f = true) ∧
              files₂.Nodup := hwf _ h₂
          have heq : pathJoin (pathJoin folder_path sub₁) f₁ =
              pathJoin (pathJoin folder_path sub₂) f₂ := by
            rw [← huf₁, ← huf₂]
          exact hne (pathJoin_inj folder_path sub₁ sub₂ f₁ f₂ hok₁.1 hok₂.1 heq).1
  exact ⟨hnd, clean_duplicates_of_nodup_urls _ hnd⟩

/-- Witness for the pairwise-distinct paths of a produced table: two
subfolders both holding a file x.jpg still give two distinct rows. -/
theorem process_folder_nodup_urls_witness :
    (([FsEntry.dir "s1" ["x.jpg"], FsEntry.dir "s2" ["x.jpg"]].map entryName).Nodup) ∧
    (∀ e ∈ [FsEntry.dir "s1" ["x.jpg"], FsEntry.dir "s2" ["x.jpg"]], entryOk e) ∧
    (((process_folder (fun _ => some "t") "A"
        [FsEntry.dir "s1" ["x.jpg"], FsEntry.dir "s2" ["x.jpg"]]).map
          ImageRecord.image_url).Nodup ∧
      clean_duplicates (process_folder (fun _ => some "t") "A"
          [FsEntry.dir "s1" ["x.jpg"], FsEntry.dir "s2" ["x.jpg"]]) =
        process_folder (fun _ => some "t") "A"
          [FsEntry.dir "s1" ["x.jpg"], FsEntry.dir "s2" ["x.jpg"]]) :=
  ⟨by decide, by decide,
   process_folder_nodup_urls (fun _ => some "t") "A"
     [FsEntry.dir "s1" ["x.jpg"], FsEntry.dir "s2" ["x.jpg"]] (by decide) (by decide)⟩

/-! ## Decomposing a run of execute

Each loop iteration only appends to the run state, so the final state
is the concatenation of per-folder contributions. -/

/-- What one top-level entry leaves on disk: everything except a
directory whose try block ran to completion (through shutil.rmtree). -/
def diskOf (failAt : String → FailPoint) (tf : TopFolder) : List TopFolder :=
  match tf.contents with
  | none => [tf]
  | some _ =>
    match failAt tf.name with
    | .noFail => []
    | _ => [tf]

/-- The spreadsheet files one top-level entry gets written: exactly one
when the run reaches save_to_excel and the write completes. -/
def outputsOf (ocr : String → Option String) (failAt : String → FailPoint)
    (data_dir output_dir : String) (tf : TopFolder) : List (String × Spreadsheet) :=
  match tf.contents with
  | none => []
  | some es =>
    match failAt tf.name with
    | .atWalk => []
    | .atExport => []
    | _ => [(outputName output_dir tf.name,
             toSpreadsheet (folderTable ocr data_dir tf es))]

/-- The events one top-level entry contributes to the trace. -/
def eventsOf (ocr : String → Option String) (failAt : String → FailPoint)
    (data_dir output_dir : String) (tf : TopFolder) : List Event :=
  match tf.contents with
  | none => []
  | some es =>
    match failAt tf.name with
    | .atWalk => [.logged tf.name]
    | .atExport => [.logged tf.name]
    | .atRmtree => [.exported (outputName output_dir tf.name)
                      (toSpreadsheet (folderTable ocr data_dir tf es)),
                    .logged tf.name]
    | .noFail => [.exported (outputName output_dir tf.name)
                    (toSpreadsheet (folderTable ocr data_dir tf es)),
                  .deleted tf.name]

theorem execStep_eq (ocr : String → Option String) (failAt : String → FailPoint)
    (data_dir output_dir : String) (st : RunState) (tf : TopFolder) :
    execStep ocr failAt data_dir output_dir st tf =
      ⟨st.disk ++ diskOf failAt tf,
       st.outputs ++ outputsOf ocr failAt data_dir output_dir tf,
       st.trace ++ eventsOf ocr failAt data_dir output_dir tf⟩ := by
  obtain ⟨n, c⟩ := tf
  cases c with
  | none => simp [execStep, diskOf, outputsOf, eventsOf]
  | some es =>
    cases h : failAt n <;>
      simp [execStep, diskOf, outputsOf, eventsOf, h]

theorem execute_foldl (ocr : String → Option String) (failAt : String → FailPoint)
    (data_dir output_dir : String) (entries : List TopFolder) :
    ∀ st : RunState,
      entries.foldl (execStep ocr failAt data_dir output_dir) st =
        ⟨st.disk ++ entries.flatMap (diskOf failAt),
         st.outputs ++ entries.flatMap (outputsOf ocr failAt data_dir output_dir),
         st.trace ++ entries.flatMap (eventsOf ocr failAt data_dir output_dir)⟩ := by
  induction entries with
  | nil => intro st; cases st; simp
  | cons tf rest ih =>
    intro st
    rw [List.foldl_cons, execStep_eq, ih]
    simp [List.flatMap_cons, List.append_assoc]

theorem execute_eq (ocr : String → Option String) (failAt : String → FailPoint)
    (data_dir output_dir : String) (entries : List TopFolder) :
    execute ocr failAt data_dir output_dir entries =
      ⟨entries.flatMap (diskOf failAt),
       entries.flatMap (outputsOf ocr failAt data_dir output_dir),
       entries.flatMap (eventsOf ocr failAt data_dir output_dir)⟩ := by
  unfold execute
  rw [execute_foldl]
  simp

theorem mem_diskOf (failAt : String → FailPoint) (tf tf₂ : TopFolder) :
    tf ∈ diskOf failAt tf₂ ↔
      tf = tf₂ ∧ (tf₂.contents = none ∨ failAt tf₂.name ≠ FailPoint.noFail) := by
  obtain ⟨n, c⟩ := tf₂
  cases c with
  | none => simp [diskOf]
  | some es => cases h : failAt n <;> simp [diskOf, h]

theorem mem_disk_execute (ocr : String → Option String) (failAt : String → FailPoint)
    (data_dir output_dir : String) (entries : List TopFolder) (tf : TopFolder) :
    tf ∈ (execute ocr failAt data_dir output_dir entries).disk ↔
      tf ∈ entries ∧ (tf.contents = none ∨ failAt tf.name ≠ FailPoint.noFail) := by
  rw [execute_eq]
  simp only [List.mem_flatMap]
  constructor
  · rintro ⟨tf₂, htf₂, hmem⟩
    rcases (mem_diskOf failAt tf tf₂).mp hmem with ⟨heq, hkeep⟩
    subst heq
    exact ⟨htf₂, hkeep⟩
  · rintro ⟨htf, hkeep⟩
    exact ⟨tf, htf, (mem_diskOf failAt tf tf).mpr ⟨rfl, hkeep⟩⟩

theorem mem_outputsOf (ocr : String → Option String) (failAt : String → FailPoint)
    (data_dir output_dir : String) (tf₂ : TopFolder) (p : String × Spreadsheet) :
    p ∈ outputsOf ocr failAt data_dir output_dir tf₂ ↔
      ∃ es, tf₂.contents = some es ∧
        (failAt tf₂.name = FailPoint.atRmtree ∨ failAt tf₂.name = FailPoint.noFail) ∧
        p = (outputName output_dir tf₂.name,
             toSpreadsheet (folderTable ocr data_dir tf₂ es)) := by
  obtain ⟨n, c⟩ := tf₂
  cases c with
  | none => simp [outputsOf]
  | some es => cases h : failAt n <;> simp [outputsOf, h]

theorem outputName_inj (output_dir n₁ n₂ : String)
    (h : outputName output_dir n₁ = outputName output_dir n₂) : n₁ = n₂ := by
  have h₁ := pathJoin_left_inj _ _ _ h
  have hd : (n₁ ++ "_raw_text_extracted.xlsx").data =
      (n₂ ++ "_raw_text_extracted.xlsx").data := by rw [h₁]
  rw [String.data_append, String.data_append] at hd
  have := List.append_cancel_right hd
  ext1
  exact this

theorem noFail_name_not_on_disk (ocr : String → Option String)
    (failAt : String → FailPoint) (data_dir output_dir : String)
    (entries : List TopFolder) (tf : TopFolder) (es : List FsEntry)
    (htf : tf ∈ entries) (hes : tf.contents = some es)
    (hok : failAt tf.name = FailPoint.noFail)
    (hnodup : (entries.map TopFolder.name).Nodup) :
    tf.name ∉
      ((execute ocr failAt data_dir output_dir entries).disk.map TopFolder.name) := by
  intro hmem
  rcases List.mem_map.mp hmem with ⟨tf₂, htf₂, hname⟩
  rcases (mem_disk_execute ocr failAt data_dir output_dir entries tf₂).mp htf₂ with
    ⟨htf₂e, hkeep⟩
  have heq : tf₂ = tf := List.inj_on_of_nodup_map hnodup htf₂e htf hname
  subst heq
  rcases hkeep with hk | hk
  · rw [hes] at hk; cases hk
  · exact hk hok

theorem logged_mem_eventsOf (ocr : String → Option String)
    (failAt : String → FailPoint) (data_dir output_dir : String)
    (tf : TopFolder) (es : List FsEntry) (hes : tf.contents = some es)
    (hfail : failAt tf.name ≠ FailPoint.noFail) :
    Event.logged tf.name ∈ eventsOf ocr failAt data_dir output_dir tf := by
  obtain ⟨n, c⟩ := tf
  cases c with
  | none => cases hes
  | some es₂ =>
    cases h : failAt (TopFolder.mk n (some es₂)).name with
    | noFail => exact absurd h hfail
    | atWalk => simp [eventsOf, h]
    | atExport => simp [eventsOf, h]
    | atRmtree => simp [eventsOf, h]

theorem eventsOf_deleted_split (ocr : String → Option String)
    (failAt : String → FailPoint) (data_dir output_dir : String)
    (tf : TopFolder) (n : String) (l₁ l₂ : List Event)
    (h : eventsOf ocr failAt data_dir output_dir tf =
        l₁ ++ Event.deleted n :: l₂) :
    ∃ s, Event.exported (outputName output_dir n) s ∈ l₁ := by
  obtain ⟨m, c⟩ := tf
  cases c with
  | none =>
    exfalso
    simp only [eventsOf] at h
    cases l₁ <;> simp at h
  | some es =>
    cases hfa : failAt (TopFolder.mk m (some es)).name with
    | atWalk =>
      exfalso
      simp only [eventsOf, hfa] at h
      cases l₁ with
      | nil => simp at h
      | cons e t => cases t <;> simp at h
    | atExport =>
      exfalso
      simp only [eventsOf, hfa] at h
      cases l₁ with
      | nil => simp at h
      | cons e t => cases t <;> simp at h
    | atRmtree =>
      exfalso
      simp only [eventsOf, hfa] at h
      cases l₁ with
      | nil => simp at h
      | cons e t =>
        cases t with
        | nil => simp at h
        | cons e' t' => cases t' <;> simp at h
    | noFail =>
      simp only [eventsOf, hfa] at h
      cases l₁ with
      | nil => simp at h
      | cons e t =>
        cases t with
        | nil =>
          simp only [List.cons_append, List.nil_append, List.cons.injEq] at h
          rcases h with ⟨h1, h2, _⟩
          injection h2 with h2
          refine ⟨toSpreadsheet (folderTable ocr data_dir ⟨m, some es⟩ es), ?_⟩
          rw [← h2, h1]
          exact List.mem_singleton.mpr rfl
        | cons e' t' => cases t' <;> simp at h

theorem flatMap_deleted_precedence (g : TopFolder → List Event) (o : String)
    (hg : ∀ a n l₁ l₂, g a = l₁ ++ Event.deleted n :: l₂ →
            ∃ s, Event.exported (outputName o n) s ∈ l₁) :
    ∀ (l : List TopFolder) (n : String) (l₁ l₂ : List Event),
      l.flatMap g = l₁ ++ Event.deleted n :: l₂ →
      ∃ s, Event.exported (outputName o n) s ∈ l₁ := by
  intro l
  induction l with
  | nil =>
    intro n l₁ l₂ h
    simp only [List.flatMap_nil] at h
    cases l₁ <;> simp at h
  | cons a rest ih =>
    intro n l₁ l₂ h
    rw [List.flatMap_cons] at h
    rcases List.append_eq_append_iff.mp h with ⟨m, hc, hb⟩ | ⟨m, ha, hd⟩
    · rcases ih n m l₂ hb with ⟨s, hs⟩
      exact ⟨s, hc ▸ List.mem_append_right _ hs⟩
    · cases m with
      | nil =>
        rcases ih n [] l₂ (by simpa using hd.symm) with ⟨s, hs⟩
        exact absurd hs (List.not_mem_nil _)
      | cons e m₂ =>
        simp only [List.cons_append, List.cons.injEq] at hd
        rcases hd with ⟨he, _⟩
        rw [← he] at ha
        exact hg a n l₁ m₂ ha

/-! ## The driver claims -/

/-- C2, counterexample to "no output spreadsheet written for a failed
folder": when the exception is raised by shutil.rmtree — the last
statement of the try block — the export write has already completed, so
the failed folder is logged and left on disk and yet its spreadsheet
exists. -/
theorem execute_failed_folder_export_written :
    Event.logged "B" ∈
      (execute (fun _ => some "t") (fun _ => FailPoint.atRmtree) "data" "out"
        [⟨"B", some [FsEntry.dir "s1" ["x.jpg"]]⟩]).trace ∧
    (⟨"B", some [FsEntry.dir "s1" ["x.jpg"]]⟩ : TopFolder) ∈
      (execute (fun _ => some "t") (fun _ => FailPoint.atRmtree) "data" "out"
        [⟨"B", some [FsEntry.dir "s1" ["x.jpg"]]⟩]).disk ∧
    (execute (fun _ => some "t") (fun _ => FailPoint.atRmtree) "data" "out"
        [⟨"B", some [FsEntry.dir "s1" ["x.jpg"]]⟩]).outputs =
      [(outputName "out" "B", toSpreadsheet [⟨"data/B/s1/x.jpg", "t"⟩])] := by
  refine ⟨?_, ?_, ?_⟩ <;> decide

/-- C2 as amended: an exception during a folder's processing is caught
and logged, the folder is left un-deleted with its contents intact, and
the driver still processes every other folder; the folder has no output
spreadsheet written exactly when the exception struck before the export
write completed (during walking or the export itself) — an exception in
the subsequent cleanup leaves the already-written spreadsheet in place. -/
theorem execute_error_isolation (ocr : String → Option String)
    (failAt : String → FailPoint) (data_dir output_dir : String)
    (entries : List TopFolder) (tf : TopFolder) (es : List FsEntry)
    (htf : tf ∈ entries) (hes : tf.contents = some es)
    (hfail : failAt tf.name ≠ FailPoint.noFail)
    (hnodup : (entries.map TopFolder.name).Nodup) :
    Event.logged tf.name ∈
      (execute ocr failAt data_dir output_dir entries).trace ∧
    tf ∈ (execute ocr failAt data_dir output_dir entries).disk ∧
    ((failAt tf.name = FailPoint.atWalk ∨ failAt tf.name = FailPoint.atExport) →
      ∀ sheet, (outputName output_dir tf.name, sheet) ∉
        (execute ocr failAt data_dir output_dir entries).outputs) ∧
    (∀ tf₂ ∈ entries, ∀ es₂, tf₂.contents = some es₂ →
      failAt tf₂.name = FailPoint.noFail →
      (outputName output_dir tf₂.name,
        toSpreadsheet (folderTable ocr data_dir tf₂ es₂)) ∈
        (execute ocr failAt data_dir output_dir entries).outputs) := by
  refine ⟨?_, ?_, ?_, ?_⟩
  · rw [execute_eq]
    exact List.mem_flatMap.mpr
      ⟨tf, htf, logged_mem_eventsOf ocr failAt data_dir output_dir tf es hes hfail⟩
  · exact (mem_disk_execute ocr failAt data_dir output_dir entries tf).mpr
      ⟨htf, Or.inr hfail⟩
  · intro hcase sheet hmem
    rw [execute_eq] at hmem
    rcases List.mem_flatMap.mp hmem with ⟨tf₂, htf₂, hout⟩
    rcases (mem_outputsOf ocr failAt data_dir output_dir tf₂ _).mp hout with
      ⟨es₂, _, hfa₂, hp⟩
    have hname : tf₂.name = tf.name :=
      outputName_inj output_dir tf₂.name tf.name congr(($hp).1).symm
    have heq : tf₂ = tf := List.inj_on_of_nodup_map hnodup htf₂ htf hname
    subst heq
    rcases hcase with hc | hc <;> rcases hfa₂ with hf | hf <;> rw [hc] at hf <;> cases hf
  · intro tf₂ htf₂ es₂ hes₂ hok₂
    rw [execute_eq]
    exact List.mem_flatMap.mpr
      ⟨tf₂, htf₂, (mem_outputsOf ocr failAt data_dir output_dir tf₂ _).mpr
        ⟨es₂, hes₂, Or.inr hok₂, rfl⟩⟩

/-- The failure oracle of the witness run: folder A fails during the
export write, every other folder succeeds. -/
def wFail : String → FailPoint :=
  fun n => if n = "A" then FailPoint.atExport else FailPoint.noFail

/-- The top-level listing of the witness run. -/
def wEntries : List TopFolder :=
  [⟨"A", some [FsEntry.dir "s1" ["x.jpg"]]⟩, ⟨"C", some [FsEntry.dir "s1" ["y.png"]]⟩]

/-- Witness for the amended driver isolation: folder A fails at the
export and is logged, while folder C is still exported. -/
theorem execute_error_isolation_witness :
    Event.logged "A" ∈
      (execute (fun _ => some "t") wFail "data" "out" wEntries).trace ∧
    (outputName "out" "C",
      toSpreadsheet (folderTable (fun _ => some "t") "data"
        ⟨"C", some [FsEntry.dir "s1" ["y.png"]]⟩ [FsEntry.dir "s1" ["y.png"]])) ∈
      (execute (fun _ => some "t") wFail "data" "out" wEntries).outputs :=
  ⟨(execute_error_isolation (fun _ => some "t") wFail "data" "out" wEntries
      ⟨"A", some [FsEntry.dir "s1" ["x.jpg"]]⟩ [FsEntry.dir "s1" ["x.jpg"]]
      (by decide) (by decide) (by decide) (by decide)).1,
   (execute_error_isolation (fun _ => some "t") wFail "data" "out" wEntries
      ⟨"A", some [FsEntry.dir "s1" ["x.jpg"]]⟩ [FsEntry.dir "s1" ["x.jpg"]]
      (by decide) (by decide) (by decide) (by decide)).2.2.2
     ⟨"C", some [FsEntry.dir "s1" ["y.png"]]⟩ (by decide)
     [FsEntry.dir "s1" ["y.png"]] (by decide) (by decide)⟩

/-- C4: a deletion event for a folder only appears in the trace after
that folder's export event; a successfully processed directory is gone
from disk at the end of the run; a directory whose processing failed is
still on disk with its contents untouched. -/
theorem execute_delete_after_export (ocr : String → Option String)
    (failAt : String → FailPoint) (data_dir output_dir : String)
    (entries : List TopFolder) (tf : TopFolder) (es : List FsEntry)
    (htf : tf ∈ entries) (hes : tf.contents = some es)
    (hnodup : (entries.map TopFolder.name).Nodup) :
    (∀ (n : String) (l₁ l₂ : List Event),
      (execute ocr failAt data_dir output_dir entries).trace =
          l₁ ++ Event.deleted n :: l₂ →
      ∃ s, Event.exported (outputName output_dir n) s ∈ l₁) ∧
    (failAt tf.name = FailPoint.noFail →
      tf.name ∉
        ((execute ocr failAt data_dir output_dir entries).disk.map TopFolder.name)) ∧
    (failAt tf.name ≠ FailPoint.noFail →
      tf ∈ (execute ocr failAt data_dir output_dir entries).disk) := by
  refine ⟨?_, ?_, ?_⟩
  · intro n l₁ l₂ h
    rw [execute_eq] at h
    exact flatMap_deleted_precedence (eventsOf ocr failAt data_dir output_dir)
      output_dir
      (fun a k k₁ k₂ hk =>
        eventsOf_deleted_split ocr failAt data_dir output_dir a k k₁ k₂ hk)
      entries n l₁ l₂ h
  · intro hok
    exact noFail_name_not_on_disk ocr failAt data_dir output_dir entries tf es
      htf hes hok hnodup
  · intro hfail
    exact (mem_disk_execute ocr failAt data_dir output_dir entries tf).mpr
      ⟨htf, Or.inr hfail⟩

/-- Witness for delete-after-export: in the witness run, folder A
(failed) is still on disk and folder C (succeeded) is gone. -/
theorem execute_delete_after_export_witness :
    wFail "A" ≠ FailPoint.noFail ∧ wFail "C" = FailPoint.noFail ∧
    (⟨"A", some [FsEntry.dir "s1" ["x.jpg"]]⟩ : TopFolder) ∈
      (execute (fun _ => some "t") wFail "data" "out" wEntries).disk ∧
    "C" ∉ ((execute (fun _ => some "t") wFail "data" "out" wEntries).disk.map
      TopFolder.name) :=
  ⟨by decide, by decide,
   (execute_delete_after_export (fun _ => some "t") wFail "data" "out" wEntries
      ⟨"A", some [FsEntry.dir "s1" ["x.jpg"]]⟩ [FsEntry.dir "s1" ["x.jpg"]]
      (by decide) (by decide) (by decide)).2.2 (by decide),
   (execute_delete_after_export (fun _ => some "t") wFail "data" "out" wEntries
      ⟨"C", some [FsEntry.dir "s1" ["y.png"]]⟩ [FsEntry.dir "s1" ["y.png"]]
      (by decide) (by decide) (by decide)).2.1 (by decide)⟩

/-- C9: a directory that yields no qualifying image record still gets a
spreadsheet written, holding only the header columns image_url and
raw_text and no data row, and the directory is then deleted. -/
theorem execute_empty_folder_header_only (ocr : String → Option String)
    (failAt : String → FailPoint) (data_dir output_dir : String)
    (entries : List TopFolder) (tf : TopFolder) (es : List FsEntry)
    (htf : tf ∈ entries) (hes : tf.contents = some es)
    (hempty : process_folder ocr (pathJoin data_dir tf.name) es = [])
    (hok : failAt tf.name = FailPoint.noFail)
    (hnodup : (entries.map TopFolder.name).Nodup) :
    (outputName output_dir tf.name,
      (⟨["image_url", "raw_text"], []⟩ : Spreadsheet)) ∈
      (execute ocr failAt data_dir output_dir entries).outputs ∧
    tf.name ∉
      ((execute ocr failAt data_dir output_dir entries).disk.map TopFolder.name) := by
  constructor
  · rw [execute_eq]
    refine List.mem_flatMap.mpr
      ⟨tf, htf, (mem_outputsOf ocr failAt data_dir output_dir tf _).mpr
        ⟨es, hes, Or.inr hok, ?_⟩⟩
    unfold folderTable
    rw [hempty]
    rfl
  · exact noFail_name_not_on_disk ocr failAt data_dir output_dir entries tf es
      htf hes hok hnodup

/-- Witness for the empty-folder export: a directory E with no
subfolders yields the header-only spreadsheet and is deleted. -/
theorem execute_empty_folder_header_only_witness :
    process_folder (fun _ => some "t") (pathJoin "data" "E") [] = [] ∧
    ((outputName "out" "E", (⟨["image_url", "raw_text"], []⟩ : Spreadsheet)) ∈
      (execute (fun _ => some "t") (fun _ => FailPoint.noFail) "data" "out"
        [⟨"E", some []⟩]).outputs ∧
    "E" ∉ ((execute (fun _ => some "t") (fun _ => FailPoint.noFail) "data" "out"
        [⟨"E", some []⟩]).disk.map TopFolder.name)) :=
  ⟨rfl,
   execute_empty_folder_header_only (fun _ => some "t") (fun _ => FailPoint.noFail)
     "data" "out" [⟨"E", some []⟩] ⟨"E", some []⟩ [] (by decide) (by decide) rfl
     (by decide) (by decide)⟩
